import Mathlib

/-!
Verification of the JSON-safe AI extraction pipeline of the document
orchestrator (`src/app.py`).

The core of the repository is shallowly embedded here:

* `extract_json_from_text` — the response sanitizer (empty check, markdown
  fence removal via the case-insensitive regex alternation of triple-backtick
  and triple-backtick-json, first-to-last brace slice, JSON parse);
* `build_analysis_prompt` — the two-message prompt builder with the 6000
  character document cap;
* `call_ai` — the model client (HTTP status check, first choice content
  extraction with empty-string default);
* `analyze_with_ai` — the three-attempt retry/repair orchestrator.

Python strings are modelled as `List Char`.  The JSON value space is the
mutual inductive `Json`/`JsonList`/`JsonObj`; `parseJson` models
`json.loads` restricted to integer numerals (no float/exponent forms, no
NaN/Infinity), with strict-mode string escapes and RFC 8259 whitespace; the
orchestrator's network is modelled as a function from the call index (in
order of the calls actually issued) to the HTTP response received.
-/

/-! ## Character helpers -/

/-- Backtick character, written numerically. -/
def tick : Char := Char.ofNat 96

/-- JSON insignificant whitespace (RFC 8259), as skipped by `json.loads`. -/
def isJsonWs (c : Char) : Bool :=
  c = ' ' || c = '\t' || c = '\n' || c = '\r'

/-- ASCII whitespace stripped by Python's `str.strip()`. -/
def isPyWs (c : Char) : Bool :=
  c = ' ' || c = '\t' || c = '\n' || c = '\r' || c = Char.ofNat 11 || c = Char.ofNat 12

/-- Decimal digit test (on the code point, mirroring `0-9`). -/
def isDig (c : Char) : Bool := 48 ≤ c.toNat && c.toNat ≤ 57

/-- Character for a decimal digit value. -/
def digChar (n : Nat) : Char := Char.ofNat (48 + n)

/-- Lower-case hexadecimal digit character for a value below 16. -/
def hexChar (n : Nat) : Char :=
  if n < 10 then Char.ofNat (48 + n) else Char.ofNat (87 + n)

/-- Value of a hexadecimal digit character (either case), if it is one. -/
def hexVal (c : Char) : Option Nat :=
  if 48 ≤ c.toNat ∧ c.toNat ≤ 57 then some (c.toNat - 48)
  else if 97 ≤ c.toNat ∧ c.toNat ≤ 102 then some (c.toNat - 87)
  else if 65 ≤ c.toNat ∧ c.toNat ≤ 70 then some (c.toNat - 55)
  else none

/-- Decimal digits of a natural number, most significant first (fuelled). -/
def natToDigitsAux : Nat → Nat → List Char
  | 0, _ => []
  | f+1, n => if n < 10 then [digChar n] else natToDigitsAux f (n / 10) ++ [digChar (n % 10)]

/-- Decimal digits of a natural number, most significant first. -/
def natToDigits (n : Nat) : List Char := natToDigitsAux (n + 1) n

/-- Accumulate the value of a run of decimal digit characters. -/
def digitsVal : List Char → Nat → Nat
  | [], a => a
  | c :: cs, a => digitsVal cs (10 * a + (c.toNat - 48))

/-! ## JSON values -/

mutual

/-- A JSON value (numbers restricted to integers). -/
inductive Json where
  | null : Json
  | bool (b : Bool) : Json
  | num (n : Int) : Json
  | str (s : List Char) : Json
  | arr (l : JsonList) : Json
  | obj (o : JsonObj) : Json
deriving DecidableEq

/-- The element list of a JSON array. -/
inductive JsonList where
  | nil : JsonList
  | cons (hd : Json) (tl : JsonList) : JsonList
deriving DecidableEq

/-- The member list of a JSON object (keys in textual order, duplicates kept). -/
inductive JsonObj where
  | nil : JsonObj
  | cons (key : List Char) (val : Json) (tl : JsonObj) : JsonObj
deriving DecidableEq

end

/-! ## JSON serialization (compact form) -/

/-- Escape one character for a JSON string literal. -/
def escChar (c : Char) : List Char :=
  if c = '"' then ['\\', '"']
  else if c = '\\' then ['\\', '\\']
  else if c.toNat < 32 then
    ['\\', 'u', '0', '0', hexChar (c.toNat / 16), hexChar (c.toNat % 16)]
  else [c]

/-- Escape a whole string body for a JSON string literal. -/
def escList : List Char → List Char
  | [] => []
  | c :: cs => escChar c ++ escList cs

/-- Decimal serialization of an integer. -/
def serInt (n : Int) : List Char :=
  if n < 0 then '-' :: natToDigits n.natAbs else natToDigits n.toNat

mutual

/-- Compact serialization of a JSON value. -/
def serVal : Json → List Char
  | .null => ("null").toList
  | .bool true => ("true").toList
  | .bool false => ("false").toList
  | .num n => serInt n
  | .str s => '"' :: escList s ++ ['"']
  | .arr l => '[' :: serArrInner l
  | .obj o => '{' :: serObjInner o

/-- Serialization of an array after its opening bracket. -/
def serArrInner : JsonList → List Char
  | .nil => [']']
  | .cons h tl => serVal h ++ serArrTail tl

/-- Serialization of the rest of an array after one element. -/
def serArrTail : JsonList → List Char
  | .nil => [']']
  | .cons h tl => ',' :: serVal h ++ serArrTail tl

/-- Serialization of an object after its opening brace. -/
def serObjInner : JsonObj → List Char
  | .nil => ['}']
  | .cons k v tl => '"' :: escList k ++ '"' :: ':' :: serVal v ++ serObjTail tl

/-- Serialization of the rest of an object after one member. -/
def serObjTail : JsonObj → List Char
  | .nil => ['}']
  | .cons k v tl => ',' :: '"' :: escList k ++ '"' :: ':' :: serVal v ++ serObjTail tl

end

/-! ## JSON parsing, modelling `json.loads` -/

/-- Skip insignificant JSON whitespace. -/
def skipWs (l : List Char) : List Char := l.dropWhile isJsonWs

/-- Parse the body of a JSON string after the opening quote (strict mode:
raw control characters are rejected; escapes as in RFC 8259). -/
def pStr : Nat → List Char → Option (List Char × List Char)
  | 0, _ => none
  | _+1, [] => none
  | f+1, c :: rest =>
    if c = '"' then some ([], rest)
    else if c = '\\' then
      match rest with
      | [] => none
      | e :: r2 =>
        if e = '"' then (pStr f r2).map fun p => ('"' :: p.1, p.2)
        else if e = '\\' then (pStr f r2).map fun p => ('\\' :: p.1, p.2)
        else if e = '/' then (pStr f r2).map fun p => ('/' :: p.1, p.2)
        else if e = 'b' then (pStr f r2).map fun p => (Char.ofNat 8 :: p.1, p.2)
        else if e = 'f' then (pStr f r2).map fun p => (Char.ofNat 12 :: p.1, p.2)
        else if e = 'n' then (pStr f r2).map fun p => ('\n' :: p.1, p.2)
        else if e = 'r' then (pStr f r2).map fun p => ('\r' :: p.1, p.2)
        else if e = 't' then (pStr f r2).map fun p => ('\t' :: p.1, p.2)
        else if e = 'u' then
          match r2 with
          | h1 :: h2 :: h3 :: h4 :: r3 =>
            match hexVal h1, hexVal h2, hexVal h3, hexVal h4 with
            | some a, some b, some c2, some d =>
              (pStr f r3).map fun p =>
                (Char.ofNat (4096 * a + 256 * b + 16 * c2 + d) :: p.1, p.2)
            | _, _, _, _ => none
          | _ => none
        else none
    else if c.toNat < 32 then none
    else (pStr f rest).map fun p => (c :: p.1, p.2)

/-- Parse an unsigned JSON integer numeral (no leading zeros). -/
def pUNum (cs : List Char) : Option (Nat × List Char) :=
  match cs with
  | [] => none
  | c :: rest =>
    if c = '0' then
      match rest with
      | [] => some (0, [])
      | r :: _ => if isDig r then none else some (0, rest)
    else if isDig c then
      some (digitsVal (List.takeWhile isDig (c :: rest)) 0, List.dropWhile isDig (c :: rest))
    else none

/-- Parse a signed JSON integer numeral. -/
def pNum (cs : List Char) : Option (Int × List Char) :=
  match cs with
  | [] => none
  | c :: rest =>
    if c = '-' then (pUNum rest).map fun p => (-(p.1 : Int), p.2)
    else (pUNum (c :: rest)).map fun p => ((p.1 : Int), p.2)

mutual

/-- Parse one JSON value (fuelled recursive descent). -/
def pVal : Nat → List Char → Option (Json × List Char)
  | 0, _ => none
  | f+1, cs =>
    match skipWs cs with
    | [] => none
    | c :: rest =>
      if c = '{' then (pObj f rest).map fun p => (Json.obj p.1, p.2)
      else if c = '[' then (pArr f rest).map fun p => (Json.arr p.1, p.2)
      else if c = '"' then (pStr f rest).map fun p => (Json.str p.1, p.2)
      else if c = 't' then
        match rest with
        | 'r' :: 'u' :: 'e' :: r => some (Json.bool true, r)
        | _ => none
      else if c = 'f' then
        match rest with
        | 'a' :: 'l' :: 's' :: 'e' :: r => some (Json.bool false, r)
        | _ => none
      else if c = 'n' then
        match rest with
        | 'u' :: 'l' :: 'l' :: r => some (Json.null, r)
        | _ => none
      else (pNum (c :: rest)).map fun p => (Json.num p.1, p.2)

/-- Parse the members of an object after its opening brace. -/
def pObj : Nat → List Char → Option (JsonObj × List Char)
  | 0, _ => none
  | f+1, cs =>
    match skipWs cs with
    | [] => none
    | c :: r =>
      if c = '}' then some (JsonObj.nil, r)
      else if c = '"' then
        (pStr f r).bind fun kp =>
        match skipWs kp.2 with
        | [] => none
        | c2 :: r2 =>
          if c2 = ':' then
            (pVal f r2).bind fun vp =>
            (pObjTail f vp.2).map fun tp => (JsonObj.cons kp.1 vp.1 tp.1, tp.2)
          else none
      else none

/-- Parse the members of an object after one member. -/
def pObjTail : Nat → List Char → Option (JsonObj × List Char)
  | 0, _ => none
  | f+1, cs =>
    match skipWs cs with
    | [] => none
    | c :: r =>
      if c = '}' then some (JsonObj.nil, r)
      else if c = ',' then
        match skipWs r with
        | [] => none
        | c1 :: r1 =>
          if c1 = '"' then
            (pStr f r1).bind fun kp =>
            match skipWs kp.2 with
            | [] => none
            | c2 :: r2 =>
              if c2 = ':' then
                (pVal f r2).bind fun vp =>
                (pObjTail f vp.2).map fun tp => (JsonObj.cons kp.1 vp.1 tp.1, tp.2)
              else none
          else none
      else none

/-- Parse the elements of an array after its opening bracket. -/
def pArr : Nat → List Char → Option (JsonList × List Char)
  | 0, _ => none
  | f+1, cs =>
    match skipWs cs with
    | [] => none
    | c :: r =>
      if c = ']' then some (JsonList.nil, r)
      else
        (pVal f cs).bind fun vp =>
        (pArrTail f vp.2).map fun tp => (JsonList.cons vp.1 tp.1, tp.2)

/-- Parse the elements of an array after one element. -/
def pArrTail : Nat → List Char → Option (JsonList × List Char)
  | 0, _ => none
  | f+1, cs =>
    match skipWs cs with
    | [] => none
    | c :: r =>
      if c = ']' then some (JsonList.nil, r)
      else if c = ',' then
        (pVal f r).bind fun vp =>
        (pArrTail f vp.2).map fun tp => (JsonList.cons vp.1 tp.1, tp.2)
      else none

end

/-- Parse a complete JSON document: one value, then only whitespace,
as `json.loads` does (it raises on any trailing non-whitespace data). -/
def parseJson (cs : List Char) : Option Json :=
  (pVal (cs.length + 1) cs).bind fun p => if skipWs p.2 = [] then some p.1 else none

/-! ## Markdown fence removal

Models `re.sub(r"---json|---", "", text, flags=re.IGNORECASE)` where the
dashes stand for the triple backtick: the regex engine scans left to right
and at each position tries the first alternative (fence plus `json`, any
letter case), then the bare fence, removing the match and resuming after
it. -/

/-- Does the list start with a triple backtick followed by `json` in any case? -/
def isFenceJson : List Char → Bool
  | a :: b :: c :: d :: e :: f :: g :: _ =>
    a = tick && b = tick && c = tick && (d = 'j' || d = 'J') && (e = 's' || e = 'S') &&
      (f = 'o' || f = 'O') && (g = 'n' || g = 'N')
  | _ => false

/-- Does the list start with a triple backtick? -/
def isFence3 : List Char → Bool
  | a :: b :: c :: _ => a = tick && b = tick && c = tick
  | _ => false

/-- Fuelled left-to-right scan removing fence markers. -/
def stripFencesF : Nat → List Char → List Char
  | _, [] => []
  | 0, l => l
  | f+1, c :: cs =>
    if isFenceJson (c :: cs) then stripFencesF f ((c :: cs).drop 7)
    else if isFence3 (c :: cs) then stripFencesF f ((c :: cs).drop 3)
    else c :: stripFencesF f cs

/-- Remove every case-insensitive fence marker occurrence, leftmost first. -/
def stripFences (l : List Char) : List Char := stripFencesF l.length l

/-! ## Python string primitives used by the sanitizer -/

/-- Python `str.strip()`: drop leading and trailing whitespace. -/
def pyStrip (l : List Char) : List Char :=
  ((l.dropWhile isPyWs).reverse.dropWhile isPyWs).reverse

/-- Python `str.find(c)`: index of the first occurrence, if any. -/
def pyFind (c : Char) : List Char → Option Nat
  | [] => none
  | x :: xs => if x = c then some 0 else (pyFind c xs).map (· + 1)

/-- Python `str.rfind(c)`: index of the last occurrence, if any. -/
def pyRfind (c : Char) (l : List Char) : Option Nat :=
  (pyFind c l.reverse).map (fun i => l.length - 1 - i)

/-- Python slice `l[a:b]` for nonnegative bounds. -/
def pySlice (l : List Char) (a b : Nat) : List Char := (l.drop a).take (b - a)

/-! ## Error taxonomy (spec section 7) -/

deriving instance DecidableEq for Except

/-- Failure kinds of the core.  In the source every kind is raised as a bare
`ValueError`/`RuntimeError`; the spec names them as below. -/
inductive AnalysisError where
  | emptyResponse : AnalysisError
  | noJsonFound : AnalysisError
  | jsonParse : AnalysisError
  | upstream (status : Nat) (body : List Char) : AnalysisError
deriving DecidableEq

/-! ## The response sanitizer, from `extract_json_from_text` in `src/app.py` -/

/-- Sanitizer: reject empty or whitespace-only input, remove fence markers,
strip, slice from the first opening brace to the last closing brace, and
parse that slice as JSON. -/
def extract_json_from_text (text : List Char) : Except AnalysisError Json :=
  if (pyStrip text).isEmpty then .error .emptyResponse
  else
    match pyFind '{' (pyStrip (stripFences text)), pyRfind '}' (pyStrip (stripFences text)) with
    | some s, some e =>
      match parseJson (pySlice (pyStrip (stripFences text)) s (e + 1)) with
      | some j => .ok j
      | none => .error .jsonParse
    | _, _ => .error .noJsonFound

/-! ## Prompt builder, model client and orchestrator, from `analyze_with_ai` -/

/-- A chat message (role and content). -/
structure ChatMessage where
  role : List Char
  content : List Char
deriving DecidableEq

/-- System instruction of the analysis prompt. -/
def systemPromptText : List Char :=
  ("You MUST return ONLY valid JSON. No explanations.").toList

/-- User message text before the embedded question. -/
def userPromptPre : List Char :=
  ("\nReturn JSON in EXACTLY this format:\n\x7b\n  \"key_points\": [\"point 1\", \"point 2\"],\n  \"risk_level\": \"Low | Medium | High\",\n  \"risk_reason\": \"string\",\n  \"summary\": \"string\"\n\x7d\n\nUser Question:\n").toList

/-- User message text between the question and the document text. -/
def userPromptMid : List Char := ("\n\nDocument Text:\n").toList

/-- User message text after the document text. -/
def userPromptEnd : List Char := ("\n").toList

/-- The analysis prompt: a fixed system instruction and a user message
embedding the question verbatim and the document text capped at its first
6000 characters. -/
def build_analysis_prompt (document_text user_question : List Char) : List ChatMessage :=
  [⟨("system").toList, systemPromptText⟩,
   ⟨("user").toList,
    userPromptPre ++ user_question ++ userPromptMid ++ document_text.take 6000 ++ userPromptEnd⟩]

/-- System instruction of the repair prompt. -/
def repairSystemText : List Char := ("Fix and return ONLY valid JSON.").toList

/-- The repair prompt built around a raw model response. -/
def build_repair_prompt (raw : List Char) : List ChatMessage :=
  [⟨("system").toList, repairSystemText⟩, ⟨("user").toList, raw⟩]

/-- The HTTP response to one model call: status code, response body text,
and the `choices[0].message.content` field when present (upstream JSON
decoding of a 200 body is abstracted into this field, per spec section 6). -/
structure HttpResponse where
  status : Nat
  body : List Char
  content : Option (List Char)

/-- Model client, from `call_ai`: raise on any status other than 200 with
the response body, otherwise return the first choice's content, defaulting
to the empty string when the field is absent. -/
def call_ai (resp : HttpResponse) : Except AnalysisError (List Char) :=
  if resp.status ≠ 200 then Except.error (.upstream resp.status resp.body)
  else Except.ok (resp.content.getD [])

/-- Outcome of one `analyze_with_ai` run: the value returned (or the error
propagated to the caller) and the prompts of the model calls actually
issued, in order. -/
structure AnalyzeOutcome where
  result : Except AnalysisError Json
  sentPrompts : List (List ChatMessage)

/-- Orchestrator, from `analyze_with_ai`.  `env i` is the HTTP response to
the i-th model call issued (counting from 0).  Attempt 1 calls with the
analysis prompt and sanitizes; on any failure, attempt 2 re-fetches a raw
response with the analysis prompt, wraps it into the repair prompt, calls
again and sanitizes; on any failure, attempt 3 repeats attempt 1 and its
outcome is final. -/
def analyze_with_ai (env : Nat → HttpResponse) (document_text user_question : List Char) :
    AnalyzeOutcome :=
  let prompt := build_analysis_prompt document_text user_question
  match (call_ai (env 0)).bind extract_json_from_text with
  | .ok j => ⟨.ok j, [prompt]⟩
  | .error _ =>
    match call_ai (env 1) with
    | .error _ =>
      ⟨(call_ai (env 2)).bind extract_json_from_text, [prompt, prompt, prompt]⟩
    | .ok raw =>
      match (call_ai (env 2)).bind extract_json_from_text with
      | .ok j => ⟨.ok j, [prompt, prompt, build_repair_prompt raw]⟩
      | .error _ =>
        ⟨(call_ai (env 3)).bind extract_json_from_text,
         [prompt, prompt, build_repair_prompt raw, prompt]⟩

/-! ## Basic character lemmas -/

theorem toNat_ofNat_lt {n : Nat} (h : n < 55296) : (Char.ofNat n).toNat = n := by
  have hv : n.isValidChar := Or.inl h
  rw [Char.ofNat, dif_pos hv]
  simp [Char.ofNatAux, Char.toNat, UInt32.toNat]

theorem char_toNat_inj {c d : Char} (h : c.toNat = d.toNat) : c = d := by
  have h2 := congrArg Char.ofNat h
  rwa [Char.ofNat_toNat, Char.ofNat_toNat] at h2

theorem char_ne_of_toNat_ne {c d : Char} (h : c.toNat ≠ d.toNat) : c ≠ d :=
  fun he => h (congrArg Char.toNat he)

theorem digChar_toNat {n : Nat} (h : n < 10) : (digChar n).toNat = 48 + n := by
  unfold digChar
  exact toNat_ofNat_lt (by omega)

theorem isDig_digChar {n : Nat} (h : n < 10) : isDig (digChar n) = true := by
  simp only [isDig, digChar_toNat h, Bool.and_eq_true, decide_eq_true_eq]
  omega

theorem isDig_bounds {c : Char} (h : isDig c = true) : 48 ≤ c.toNat ∧ c.toNat ≤ 57 := by
  simpa only [isDig, Bool.and_eq_true, decide_eq_true_eq] using h

theorem hexVal_hexChar {m : Nat} (h : m < 16) : hexVal (hexChar m) = some m := by
  interval_cases m <;> decide

/-- A digit character differs from any character whose code is outside 48–57. -/
theorem isDig_ne {c d : Char} (h : isDig c = true) (hd : d.toNat < 48 ∨ 57 < d.toNat) :
    c ≠ d := by
  have hb := isDig_bounds h
  exact char_ne_of_toNat_ne (by omega)

theorem isJsonWs_false_of_dig {c : Char} (h : isDig c = true) : isJsonWs c = false := by
  have hb := isDig_bounds h
  have hsp : (' ').toNat = 32 := by decide
  have hta : ('\t').toNat = 9 := by decide
  have hnl : ('\n').toNat = 10 := by decide
  have hcr : ('\r').toNat = 13 := by decide
  simp only [isJsonWs, Bool.or_eq_false_iff, decide_eq_false_iff_not]
  exact ⟨⟨⟨char_ne_of_toNat_ne (by omega), char_ne_of_toNat_ne (by omega)⟩,
    char_ne_of_toNat_ne (by omega)⟩, char_ne_of_toNat_ne (by omega)⟩

/-! ## Decimal digit string lemmas -/

theorem natToDigitsAux_all_dig :
    ∀ f n, n < f → ∀ c ∈ natToDigitsAux f n, isDig c = true := by
  intro f
  induction f with
  | zero => intro n hn; omega
  | succ f ih =>
    intro n _ c hc
    rw [natToDigitsAux] at hc
    by_cases h10 : n < 10
    · rw [if_pos h10] at hc
      simp only [List.mem_singleton] at hc
      exact hc ▸ isDig_digChar h10
    · rw [if_neg h10] at hc
      rcases List.mem_append.1 hc with hm | hm
      · exact ih (n / 10) (by omega) c hm
      · simp only [List.mem_singleton] at hm
        exact hm ▸ isDig_digChar (Nat.mod_lt _ (by omega))

theorem natToDigitsAux_head :
    ∀ f n, n < f → 1 ≤ n → ∃ d tl, natToDigitsAux f n = digChar d :: tl ∧ 1 ≤ d ∧ d < 10 := by
  intro f
  induction f with
  | zero => intro n hn; omega
  | succ f ih =>
    intro n _ h1
    by_cases h10 : n < 10
    · refine ⟨n, [], ?_, h1, h10⟩
      simp only [natToDigitsAux, if_pos h10]
    · obtain ⟨d, tl, heq, hd1, hd9⟩ := ih (n / 10) (by omega) (by omega)
      refine ⟨d, tl ++ [digChar (n % 10)], ?_, hd1, hd9⟩
      simp only [natToDigitsAux, if_neg h10, heq]
      rfl

theorem digitsVal_append :
    ∀ (xs ys : List Char) (a : Nat), digitsVal (xs ++ ys) a = digitsVal ys (digitsVal xs a) := by
  intro xs
  induction xs with
  | nil => intro ys a; rfl
  | cons c cs ih =>
    intro ys a
    simp only [List.cons_append, digitsVal]
    exact ih ys _

theorem digitsVal_aux :
    ∀ f n a, n < f →
      digitsVal (natToDigitsAux f n) a = a * 10 ^ (natToDigitsAux f n).length + n := by
  intro f
  induction f with
  | zero => intro n a hn; omega
  | succ f ih =>
    intro n a _
    by_cases h10 : n < 10
    · simp only [natToDigitsAux, if_pos h10]
      simp only [digitsVal, List.length_singleton, pow_one, digChar_toNat h10]
      omega
    · simp only [natToDigitsAux, if_neg h10]
      rw [digitsVal_append, ih (n / 10) a (by omega)]
      simp only [digitsVal, digChar_toNat (Nat.mod_lt _ (by omega : (0:Nat) < 10)),
        List.length_append, List.length_singleton]
      have hmod := Nat.div_add_mod n 10
      ring_nf
      omega

theorem natToDigits_all_dig {n : Nat} : ∀ c ∈ natToDigits n, isDig c = true :=
  natToDigitsAux_all_dig (n + 1) n (Nat.lt_succ_self n)

theorem natToDigits_head {n : Nat} (h : 1 ≤ n) :
    ∃ d tl, natToDigits n = digChar d :: tl ∧ 1 ≤ d ∧ d < 10 :=
  natToDigitsAux_head (n + 1) n (Nat.lt_succ_self n) h

theorem digitsVal_natToDigits {n : Nat} : digitsVal (natToDigits n) 0 = n := by
  have h := digitsVal_aux (n + 1) n 0 (Nat.lt_succ_self n)
  simpa using h

/-! ## Number parsing round trip -/

/-- Characters that may follow a serialized value inside a larger document:
end of input, a comma, a closing brace or a closing bracket. -/
def restOk (r : List Char) : Prop :=
  r = [] ∨ ∃ c t, r = c :: t ∧ (c = ',' ∨ c = '}' ∨ c = ']')

theorem restOk_not_dig {r : List Char} (h : restOk r) :
    List.takeWhile isDig r = [] ∧ List.dropWhile isDig r = r := by
  rcases h with rfl | ⟨c, t, rfl, hc⟩
  · exact ⟨rfl, rfl⟩
  · have hcd : isDig c = false := by rcases hc with rfl | rfl | rfl <;> decide
    rw [List.takeWhile_cons, List.dropWhile_cons]
    simp [hcd]

theorem natToDigits_cons_dig (m : Nat) :
    ∃ c0 t0, natToDigits m = c0 :: t0 ∧ isDig c0 = true := by
  rcases Nat.eq_zero_or_pos m with rfl | hm
  · exact ⟨'0', [], by decide, by decide⟩
  · obtain ⟨d, tl, heq, _, hd9⟩ := natToDigits_head hm
    exact ⟨digChar d, tl, heq, isDig_digChar hd9⟩

theorem pUNum_ser {m : Nat} {rest : List Char} (h : restOk rest) :
    pUNum (natToDigits m ++ rest) = some (m, rest) := by
  have halldig := natToDigits_all_dig (n := m)
  have htw : List.takeWhile isDig (natToDigits m ++ rest) = natToDigits m := by
    rw [List.takeWhile_append_of_pos halldig, (restOk_not_dig h).1, List.append_nil]
  have hdw : List.dropWhile isDig (natToDigits m ++ rest) = rest := by
    rw [List.dropWhile_append_of_pos halldig, (restOk_not_dig h).2]
  rcases Nat.eq_zero_or_pos m with rfl | hm
  · have h0 : natToDigits 0 = ['0'] := by decide
    rw [h0]
    rcases h with rfl | ⟨c, t, rfl, hc⟩
    · rfl
    · have hcd : isDig c = false := by rcases hc with rfl | rfl | rfl <;> decide
      simp [pUNum, hcd]
  · obtain ⟨d, tl, heq, hd1, hd9⟩ := natToDigits_head hm
    have hdig : isDig (digChar d) = true := isDig_digChar hd9
    have h48 : ('0').toNat = 48 := by decide
    have hne0 : digChar d ≠ '0' := by
      have hto := digChar_toNat hd9
      exact char_ne_of_toNat_ne (by omega)
    have hback : digChar d :: (tl ++ rest) = natToDigits m ++ rest := by
      rw [heq]; rfl
    rw [heq]
    show pUNum (digChar d :: (tl ++ rest)) = some (m, rest)
    simp only [pUNum, if_neg hne0, if_pos hdig]
    rw [hback, htw, hdw, digitsVal_natToDigits]

theorem pNum_ser {n : Int} {rest : List Char} (h : restOk rest) :
    pNum (serInt n ++ rest) = some (n, rest) := by
  by_cases hn : n < 0
  · rw [serInt, if_pos hn]
    show pNum ('-' :: (natToDigits n.natAbs ++ rest)) = some (n, rest)
    simp only [pNum, if_pos rfl]
    rw [pUNum_ser h]
    have habs : -((n.natAbs : Nat) : Int) = n := by omega
    simp only [Option.map_some']
    rw [habs]
    simp
  · rw [serInt, if_neg hn]
    obtain ⟨c0, t0, heq, hdig⟩ := natToDigits_cons_dig n.toNat
    have h45 : ('-').toNat = 45 := by decide
    have hb := isDig_bounds hdig
    have hnm : c0 ≠ '-' := char_ne_of_toNat_ne (by omega)
    have hback : c0 :: (t0 ++ rest) = natToDigits n.toNat ++ rest := by
      rw [heq]; rfl
    rw [heq]
    show pNum (c0 :: (t0 ++ rest)) = some (n, rest)
    simp only [pNum, if_neg hnm]
    rw [hback, pUNum_ser h]
    simp only [Option.map_some']
    have : ((n.toNat : Nat) : Int) = n := by omega
    rw [this]

/-! ## String parsing round trip -/

theorem escList_cons (c : Char) (cs : List Char) :
    escList (c :: cs) = escChar c ++ escList cs := rfl

theorem pStr_rt :
    ∀ (s : List Char) (f : Nat) (rest : List Char),
      (escList s).length < f → pStr f (escList s ++ ('"' :: rest)) = some (s, rest) := by
  intro s
  induction s with
  | nil =>
    intro f rest hf
    cases f with
    | zero => simp [escList] at hf
    | succ f => rfl
  | cons c cs ih =>
    intro f rest hf
    rw [escList_cons] at hf ⊢
    by_cases hq : c = '"'
    · subst hq
      have he : escChar '"' = ['\\', '"'] := by decide
      rw [he] at hf ⊢
      cases f with
      | zero => simp at hf
      | succ f =>
        simp only [List.cons_append, List.nil_append]
        show pStr (f + 1) ('\\' :: '"' :: (escList cs ++ '"' :: rest)) = some ('"' :: cs, rest)
        simp only [pStr]
        rw [ih f rest (by simp at hf; omega)]
        simp
    · by_cases hb : c = '\\'
      · subst hb
        have he : escChar '\\' = ['\\', '\\'] := by decide
        rw [he] at hf ⊢
        cases f with
        | zero => simp at hf
        | succ f =>
          show pStr (f + 1) ('\\' :: '\\' :: (escList cs ++ '"' :: rest)) = some ('\\' :: cs, rest)
          simp only [pStr]
          rw [ih f rest (by simp at hf; omega)]
          simp
      · by_cases h32 : c.toNat < 32
        · have he : escChar c =
              ['\\', 'u', '0', '0', hexChar (c.toNat / 16), hexChar (c.toNat % 16)] := by
            rw [escChar, if_neg hq, if_neg hb, if_pos h32]
          rw [he] at hf ⊢
          cases f with
          | zero => simp at hf
          | succ f =>
            show pStr (f + 1) ('\\' :: 'u' :: '0' :: '0' :: hexChar (c.toNat / 16) ::
                hexChar (c.toNat % 16) :: (escList cs ++ '"' :: rest)) = some (c :: cs, rest)
            have hhi : hexVal (hexChar (c.toNat / 16)) = some (c.toNat / 16) :=
              hexVal_hexChar (by omega)
            have hlo : hexVal (hexChar (c.toNat % 16)) = some (c.toNat % 16) :=
              hexVal_hexChar (by omega)
            have h0v : hexVal '0' = some 0 := by decide
            simp only [pStr, h0v, hhi, hlo]
            rw [ih f rest (by simp at hf; omega)]
            have hch : Char.ofNat (16 * (c.toNat / 16) + c.toNat % 16) = c := by
              have harith : 16 * (c.toNat / 16) + c.toNat % 16 = c.toNat := by omega
              rw [harith, Char.ofNat_toNat]
            simp [hch]
        · have he : escChar c = [c] := by
            rw [escChar, if_neg hq, if_neg hb, if_neg h32]
          rw [he] at hf ⊢
          cases f with
          | zero => simp at hf
          | succ f =>
            show pStr (f + 1) (c :: (escList cs ++ '"' :: rest)) = some (c :: cs, rest)
            simp only [pStr, if_neg hq, if_neg hb, if_neg h32]
            rw [ih f rest (by simp at hf; omega)]
            simp

/-! ## Shape lemmas for serialized values -/

theorem skipWs_cons_of {c : Char} (h : isJsonWs c = false) (l : List Char) :
    skipWs (c :: l) = c :: l := by
  simp [skipWs, List.dropWhile_cons, h]

theorem serInt_cons (n : Int) :
    ∃ c0 t0, serInt n = c0 :: t0 ∧ (c0 = '-' ∨ isDig c0 = true) := by
  by_cases hn : n < 0
  · exact ⟨'-', natToDigits n.natAbs, by rw [serInt, if_pos hn], Or.inl rfl⟩
  · obtain ⟨c0, t0, heq, hd⟩ := natToDigits_cons_dig n.toNat
    exact ⟨c0, t0, by rw [serInt, if_neg hn, heq], Or.inr hd⟩

theorem serInt_head_facts {c0 : Char} (h : c0 = '-' ∨ isDig c0 = true) :
    isJsonWs c0 = false ∧ c0 ≠ '{' ∧ c0 ≠ '[' ∧ c0 ≠ '"' ∧ c0 ≠ 't' ∧ c0 ≠ 'f' ∧ c0 ≠ 'n' ∧
      c0 ≠ ']' := by
  rcases h with rfl | hd
  · exact ⟨by decide, by decide, by decide, by decide, by decide, by decide, by decide, by decide⟩
  · have hb := isDig_bounds hd
    have v1 : ('{').toNat = 123 := by decide
    have v2 : ('[').toNat = 91 := by decide
    have v3 : ('"').toNat = 34 := by decide
    have v4 : ('t').toNat = 116 := by decide
    have v5 : ('f').toNat = 102 := by decide
    have v6 : ('n').toNat = 110 := by decide
    have v7 : (']').toNat = 93 := by decide
    exact ⟨isJsonWs_false_of_dig hd, char_ne_of_toNat_ne (by omega),
      char_ne_of_toNat_ne (by omega), char_ne_of_toNat_ne (by omega),
      char_ne_of_toNat_ne (by omega), char_ne_of_toNat_ne (by omega),
      char_ne_of_toNat_ne (by omega), char_ne_of_toNat_ne (by omega)⟩

theorem serVal_head_facts (j : Json) :
    ∃ c0 t0, serVal j = c0 :: t0 ∧ isJsonWs c0 = false ∧ c0 ≠ ']' := by
  cases j with
  | null => exact ⟨'n', _, rfl, by decide, by decide⟩
  | bool b => cases b with
    | true => exact ⟨'t', _, rfl, by decide, by decide⟩
    | false => exact ⟨'f', _, rfl, by decide, by decide⟩
  | num n =>
    obtain ⟨c0, t0, heq, hd⟩ := serInt_cons n
    obtain ⟨hws, _, _, _, _, _, _, hne⟩ := serInt_head_facts hd
    exact ⟨c0, t0, heq, hws, hne⟩
  | str s => exact ⟨'"', _, rfl, by decide, by decide⟩
  | arr l => exact ⟨'[', _, rfl, by decide, by decide⟩
  | obj o => exact ⟨'{', _, rfl, by decide, by decide⟩

theorem serVal_length_pos (j : Json) : 0 < (serVal j).length := by
  obtain ⟨c0, t0, heq, _, _⟩ := serVal_head_facts j
  rw [heq]
  simp

theorem serArrTail_length_pos (tl : JsonList) : 0 < (serArrTail tl).length := by
  cases tl <;> simp [serArrTail]

theorem serObjTail_length_pos (tl : JsonObj) : 0 < (serObjTail tl).length := by
  cases tl <;> simp [serObjTail]

theorem serArrTail_restOk (tl : JsonList) (rest : List Char) :
    restOk (serArrTail tl ++ rest) := by
  cases tl with
  | nil => exact Or.inr ⟨']', rest, rfl, Or.inr (Or.inr rfl)⟩
  | cons h t => exact Or.inr ⟨',', (serVal h ++ serArrTail t) ++ rest, rfl, Or.inl rfl⟩

theorem serObjTail_restOk (tl : JsonObj) (rest : List Char) :
    restOk (serObjTail tl ++ rest) := by
  cases tl with
  | nil => exact Or.inr ⟨'}', rest, rfl, Or.inr (Or.inl rfl)⟩
  | cons k v t =>
    have he : serObjTail (JsonObj.cons k v t) =
        ',' :: ('"' :: (escList k ++ ('"' :: (':' :: (serVal v ++ serObjTail t))))) := by
      simp [serObjTail]
    rw [he]
    exact Or.inr ⟨',', ('"' :: (escList k ++ ('"' :: (':' :: (serVal v ++ serObjTail t))))) ++ rest,
      rfl, Or.inl rfl⟩

/-! ## Serialization round trip: parsing a serialized value recovers it -/

mutual

theorem rtVal : ∀ (j : Json) (f : Nat) (rest : List Char), restOk rest →
    (serVal j).length < f → pVal f (serVal j ++ rest) = some (j, rest) := by
  intro j f rest hro hf
  cases j with
  | null =>
    cases f with
    | zero => exact absurd hf (Nat.not_lt_zero _)
    | succ f =>
      show pVal (f+1) ('n' :: 'u' :: 'l' :: 'l' :: rest) = some (Json.null, rest)
      have hsw := skipWs_cons_of (c := 'n') (by decide) ('u' :: 'l' :: 'l' :: rest)
      simp [pVal, hsw]
  | bool b =>
    cases f with
    | zero => exact absurd hf (Nat.not_lt_zero _)
    | succ f =>
      cases b with
      | true =>
        show pVal (f+1) ('t' :: 'r' :: 'u' :: 'e' :: rest) = some (Json.bool true, rest)
        have hsw := skipWs_cons_of (c := 't') (by decide) ('r' :: 'u' :: 'e' :: rest)
        simp [pVal, hsw]
      | false =>
        show pVal (f+1) ('f' :: 'a' :: 'l' :: 's' :: 'e' :: rest) = some (Json.bool false, rest)
        have hsw := skipWs_cons_of (c := 'f') (by decide) ('a' :: 'l' :: 's' :: 'e' :: rest)
        simp [pVal, hsw]
  | num n =>
    cases f with
    | zero => exact absurd hf (Nat.not_lt_zero _)
    | succ f =>
      obtain ⟨c0, t0, heq, hd⟩ := serInt_cons n
      obtain ⟨hws, hne1, hne2, hne3, hne4, hne5, hne6, _⟩ := serInt_head_facts hd
      have hser : serVal (Json.num n) = c0 :: t0 := heq
      rw [hser]
      show pVal (f+1) (c0 :: (t0 ++ rest)) = some (Json.num n, rest)
      have hsw := skipWs_cons_of hws (t0 ++ rest)
      have hpn : pNum (c0 :: (t0 ++ rest)) = some (n, rest) := by
        have hb : c0 :: (t0 ++ rest) = serInt n ++ rest := by rw [heq]; rfl
        rw [hb]
        exact pNum_ser hro
      simp only [pVal, hsw, if_neg hne1, if_neg hne2, if_neg hne3, if_neg hne4, if_neg hne5,
        if_neg hne6, hpn]
      simp
  | str s =>
    cases f with
    | zero => exact absurd hf (Nat.not_lt_zero _)
    | succ f =>
      have hassoc : serVal (Json.str s) ++ rest = '"' :: (escList s ++ ('"' :: rest)) := by
        show ('"' :: escList s ++ ['"']) ++ rest = _
        simp
      rw [hassoc]
      have hlen : (escList s).length < f := by
        have : (serVal (Json.str s)).length = (escList s).length + 2 := by
          show ('"' :: escList s ++ ['"']).length = _
          simp
        omega
      have hsw := skipWs_cons_of (c := '"') (by decide) (escList s ++ ('"' :: rest))
      simp only [pVal, hsw]
      rw [pStr_rt s f rest hlen]
      simp
  | arr l =>
    cases f with
    | zero => exact absurd hf (Nat.not_lt_zero _)
    | succ f =>
      have hassoc : serVal (Json.arr l) ++ rest = '[' :: (serArrInner l ++ rest) := rfl
      rw [hassoc]
      have hlen : (serArrInner l).length < f := by
        have : (serVal (Json.arr l)).length = (serArrInner l).length + 1 := by
          show ('[' :: serArrInner l).length = _
          simp
        omega
      have hsw := skipWs_cons_of (c := '[') (by decide) (serArrInner l ++ rest)
      simp only [pVal, hsw]
      rw [rtArrInner l f rest hlen]
      simp
  | obj o =>
    cases f with
    | zero => exact absurd hf (Nat.not_lt_zero _)
    | succ f =>
      have hassoc : serVal (Json.obj o) ++ rest = '{' :: (serObjInner o ++ rest) := rfl
      rw [hassoc]
      have hlen : (serObjInner o).length < f := by
        have : (serVal (Json.obj o)).length = (serObjInner o).length + 1 := by
          show ('{' :: serObjInner o).length = _
          simp
        omega
      have hsw := skipWs_cons_of (c := '{') (by decide) (serObjInner o ++ rest)
      simp only [pVal, hsw]
      rw [rtObjInner o f rest hlen]
      simp

theorem rtArrInner : ∀ (l : JsonList) (f : Nat) (rest : List Char),
    (serArrInner l).length < f → pArr f (serArrInner l ++ rest) = some (l, rest) := by
  intro l f rest hf
  cases l with
  | nil =>
    cases f with
    | zero => exact absurd hf (Nat.not_lt_zero _)
    | succ f =>
      show pArr (f+1) (']' :: rest) = some (JsonList.nil, rest)
      have hsw := skipWs_cons_of (c := ']') (by decide) rest
      simp [pArr, hsw]
  | cons h tl =>
    cases f with
    | zero => exact absurd hf (Nat.not_lt_zero _)
    | succ f =>
      have hassoc : serArrInner (JsonList.cons h tl) ++ rest =
          serVal h ++ (serArrTail tl ++ rest) := by
        show (serVal h ++ serArrTail tl) ++ rest = _
        simp
      rw [hassoc]
      have hlen : (serArrInner (JsonList.cons h tl)).length =
          (serVal h).length + (serArrTail tl).length := by
        show (serVal h ++ serArrTail tl).length = _
        simp
      have hv := serVal_length_pos h
      have ht := serArrTail_length_pos tl
      obtain ⟨c0, t0, hc, hws, hne⟩ := serVal_head_facts h
      have hcons : serVal h ++ (serArrTail tl ++ rest) = c0 :: (t0 ++ (serArrTail tl ++ rest)) := by
        rw [hc]; rfl
      have hsw : skipWs (serVal h ++ (serArrTail tl ++ rest)) =
          c0 :: (t0 ++ (serArrTail tl ++ rest)) := by
        rw [hcons]
        exact skipWs_cons_of hws _
      have hpv : pVal f (serVal h ++ (serArrTail tl ++ rest)) =
          some (h, serArrTail tl ++ rest) :=
        rtVal h f (serArrTail tl ++ rest) (serArrTail_restOk tl rest) (by omega)
      have hpt : pArrTail f (serArrTail tl ++ rest) = some (tl, rest) :=
        rtArrTail tl f rest (by omega)
      simp [pArr, hsw, hne, hpv, hpt]

theorem rtArrTail : ∀ (tl : JsonList) (f : Nat) (rest : List Char),
    (serArrTail tl).length < f → pArrTail f (serArrTail tl ++ rest) = some (tl, rest) := by
  intro tl f rest hf
  cases tl with
  | nil =>
    cases f with
    | zero => exact absurd hf (Nat.not_lt_zero _)
    | succ f =>
      show pArrTail (f+1) (']' :: rest) = some (JsonList.nil, rest)
      have hsw := skipWs_cons_of (c := ']') (by decide) rest
      simp [pArrTail, hsw]
  | cons h tl =>
    cases f with
    | zero => exact absurd hf (Nat.not_lt_zero _)
    | succ f =>
      have hassoc : serArrTail (JsonList.cons h tl) ++ rest =
          ',' :: (serVal h ++ (serArrTail tl ++ rest)) := by
        show (',' :: (serVal h ++ serArrTail tl)) ++ rest = _
        simp
      rw [hassoc]
      have hlen : (serArrTail (JsonList.cons h tl)).length =
          (serVal h).length + (serArrTail tl).length + 1 := by
        show (',' :: (serVal h ++ serArrTail tl)).length = _
        simp
      have hv := serVal_length_pos h
      have ht := serArrTail_length_pos tl
      have hsw := skipWs_cons_of (c := ',') (by decide) (serVal h ++ (serArrTail tl ++ rest))
      have hpv : pVal f (serVal h ++ (serArrTail tl ++ rest)) =
          some (h, serArrTail tl ++ rest) :=
        rtVal h f (serArrTail tl ++ rest) (serArrTail_restOk tl rest) (by omega)
      have hpt : pArrTail f (serArrTail tl ++ rest) = some (tl, rest) :=
        rtArrTail tl f rest (by omega)
      simp [pArrTail, hsw, hpv, hpt]

theorem rtObjInner : ∀ (o : JsonObj) (f : Nat) (rest : List Char),
    (serObjInner o).length < f → pObj f (serObjInner o ++ rest) = some (o, rest) := by
  intro o f rest hf
  cases o with
  | nil =>
    cases f with
    | zero => exact absurd hf (Nat.not_lt_zero _)
    | succ f =>
      show pObj (f+1) ('}' :: rest) = some (JsonObj.nil, rest)
      have hsw := skipWs_cons_of (c := '}') (by decide) rest
      simp [pObj, hsw]
  | cons k v tl =>
    cases f with
    | zero => exact absurd hf (Nat.not_lt_zero _)
    | succ f =>
      have he : serObjInner (JsonObj.cons k v tl) =
          '"' :: (escList k ++ ('"' :: (':' :: (serVal v ++ serObjTail tl)))) := by
        simp [serObjInner]
      have hassoc : serObjInner (JsonObj.cons k v tl) ++ rest =
          '"' :: (escList k ++ ('"' :: (':' :: (serVal v ++ (serObjTail tl ++ rest))))) := by
        rw [he]
        simp
      rw [hassoc]
      have hlen : (serObjInner (JsonObj.cons k v tl)).length =
          (escList k).length + (serVal v).length + (serObjTail tl).length + 3 := by
        rw [he]
        simp
        omega
      have hv := serVal_length_pos v
      have ht := serObjTail_length_pos tl
      have hsw := skipWs_cons_of (c := '"') (by decide)
        (escList k ++ ('"' :: (':' :: (serVal v ++ (serObjTail tl ++ rest)))))
      have hps : pStr f (escList k ++ ('"' :: (':' :: (serVal v ++ (serObjTail tl ++ rest))))) =
          some (k, ':' :: (serVal v ++ (serObjTail tl ++ rest))) :=
        pStr_rt k f _ (by omega)
      have hsw2 := skipWs_cons_of (c := ':') (by decide) (serVal v ++ (serObjTail tl ++ rest))
      have hpv : pVal f (serVal v ++ (serObjTail tl ++ rest)) =
          some (v, serObjTail tl ++ rest) :=
        rtVal v f (serObjTail tl ++ rest) (serObjTail_restOk tl rest) (by omega)
      have hpt : pObjTail f (serObjTail tl ++ rest) = some (tl, rest) :=
        rtObjTail tl f rest (by omega)
      simp [pObj, hsw, hps, hsw2, hpv, hpt]

theorem rtObjTail : ∀ (tl : JsonObj) (f : Nat) (rest : List Char),
    (serObjTail tl).length < f → pObjTail f (serObjTail tl ++ rest) = some (tl, rest) := by
  intro tl f rest hf
  cases tl with
  | nil =>
    cases f with
    | zero => exact absurd hf (Nat.not_lt_zero _)
    | succ f =>
      show pObjTail (f+1) ('}' :: rest) = some (JsonObj.nil, rest)
      have hsw := skipWs_cons_of (c := '}') (by decide) rest
      simp [pObjTail, hsw]
  | cons k v tl =>
    cases f with
    | zero => exact absurd hf (Nat.not_lt_zero _)
    | succ f =>
      have he : serObjTail (JsonObj.cons k v tl) =
          ',' :: ('"' :: (escList k ++ ('"' :: (':' :: (serVal v ++ serObjTail tl))))) := by
        simp [serObjTail]
      have hassoc : serObjTail (JsonObj.cons k v tl) ++ rest =
          ',' :: ('"' :: (escList k ++ ('"' :: (':' :: (serVal v ++ (serObjTail tl ++ rest)))))) := by
        rw [he]
        simp
      rw [hassoc]
      have hlen : (serObjTail (JsonObj.cons k v tl)).length =
          (escList k).length + (serVal v).length + (serObjTail tl).length + 4 := by
        rw [he]
        simp
        omega
      have hv := serVal_length_pos v
      have ht := serObjTail_length_pos tl
      have hsw := skipWs_cons_of (c := ',') (by decide)
        ('"' :: (escList k ++ ('"' :: (':' :: (serVal v ++ (serObjTail tl ++ rest))))))
      have hsw1 := skipWs_cons_of (c := '"') (by decide)
        (escList k ++ ('"' :: (':' :: (serVal v ++ (serObjTail tl ++ rest)))))
      have hps : pStr f (escList k ++ ('"' :: (':' :: (serVal v ++ (serObjTail tl ++ rest))))) =
          some (k, ':' :: (serVal v ++ (serObjTail tl ++ rest))) :=
        pStr_rt k f _ (by omega)
      have hsw2 := skipWs_cons_of (c := ':') (by decide) (serVal v ++ (serObjTail tl ++ rest))
      have hpv : pVal f (serVal v ++ (serObjTail tl ++ rest)) =
          some (v, serObjTail tl ++ rest) :=
        rtVal v f (serObjTail tl ++ rest) (serObjTail_restOk tl rest) (by omega)
      have hpt : pObjTail f (serObjTail tl ++ rest) = some (tl, rest) :=
        rtObjTail tl f rest (by omega)
      simp [pObjTail, hsw, hsw1, hps, hsw2, hpv, hpt]

end

/-- Parsing a compactly serialized JSON value recovers it exactly. -/
theorem parseJson_serVal (j : Json) : parseJson (serVal j) = some j := by
  unfold parseJson
  have h := rtVal j ((serVal j).length + 1) [] (Or.inl rfl) (Nat.lt_succ_self _)
  rw [List.append_nil] at h
  rw [h]
  simp [skipWs]

/-! ## Fence removal lemmas -/

theorem stripFencesF_nil (f : Nat) : stripFencesF f [] = [] := by
  cases f <;> rfl

theorem isFenceJson_spec {l : List Char} (h : isFenceJson l = true) :
    ∃ d e f g rest, l = tick :: tick :: tick :: d :: e :: f :: g :: rest ∧
      (d = 'j' ∨ d = 'J') ∧ (e = 's' ∨ e = 'S') ∧ (f = 'o' ∨ f = 'O') ∧ (g = 'n' ∨ g = 'N') := by
  match l with
  | [] | [_] | [_, _] | [_, _, _] | [_, _, _, _] | [_, _, _, _, _] | [_, _, _, _, _, _] =>
    simp [isFenceJson] at h
  | a :: b :: c :: d :: e :: f :: g :: rest =>
    simp only [isFenceJson, Bool.and_eq_true, decide_eq_true_eq, Bool.or_eq_true] at h
    obtain ⟨⟨⟨⟨⟨⟨ha, hb⟩, hc⟩, hd⟩, he⟩, hf⟩, hg⟩ := h
    subst ha; subst hb; subst hc
    exact ⟨d, e, f, g, rest, rfl, hd, he, hf, hg⟩

theorem isFence3_spec {l : List Char} (h : isFence3 l = true) :
    ∃ rest, l = tick :: tick :: tick :: rest := by
  match l with
  | [] | [_] | [_, _] => simp [isFence3] at h
  | a :: b :: c :: rest =>
    simp only [isFence3, Bool.and_eq_true, decide_eq_true_eq] at h
    obtain ⟨⟨ha, hb⟩, hc⟩ := h
    subst ha; subst hb; subst hc
    exact ⟨rest, rfl⟩

theorem isFenceJson_false_of_head {c : Char} {cs : List Char} (h : c ≠ tick) :
    isFenceJson (c :: cs) = false := by
  by_contra hx
  rw [Bool.not_eq_false] at hx
  obtain ⟨d, e, f, g, rest, heq, _⟩ := isFenceJson_spec hx
  injection heq with h1 _
  exact h h1

theorem isFence3_false_of_head {c : Char} {cs : List Char} (h : c ≠ tick) :
    isFence3 (c :: cs) = false := by
  by_contra hx
  rw [Bool.not_eq_false] at hx
  obtain ⟨rest, heq⟩ := isFence3_spec hx
  injection heq with h1 _
  exact h h1

theorem stripFencesF_fuel :
    ∀ (n : Nat) (l : List Char) (f g : Nat), l.length ≤ f → l.length ≤ g → l.length ≤ n →
      stripFencesF f l = stripFencesF g l := by
  intro n
  induction n with
  | zero =>
    intro l f g _ _ hn
    have : l = [] := List.length_eq_zero.1 (Nat.le_zero.1 hn)
    subst this
    rw [stripFencesF_nil, stripFencesF_nil]
  | succ n ih =>
    intro l f g hlf hlg hln
    match l with
    | [] => rw [stripFencesF_nil, stripFencesF_nil]
    | c :: cs =>
      have hlen : (c :: cs).length = cs.length + 1 := rfl
      match f, g with
      | f'+1, g'+1 =>
        simp only [stripFencesF]
        by_cases hj : isFenceJson (c :: cs)
        · rw [if_pos hj, if_pos hj]
          obtain ⟨d, e, f0, g0, rest, heq, _⟩ := isFenceJson_spec hj
          have hd7 : ((c :: cs).drop 7).length = (c :: cs).length - 7 := List.length_drop _ _
          exact ih _ f' g' (by omega) (by omega) (by omega)
        · rw [if_neg hj, if_neg hj]
          by_cases h3 : isFence3 (c :: cs)
          · rw [if_pos h3, if_pos h3]
            have hd3 : ((c :: cs).drop 3).length = (c :: cs).length - 3 := List.length_drop _ _
            exact ih _ f' g' (by omega) (by omega) (by omega)
          · rw [if_neg h3, if_neg h3]
            exact congrArg (c :: ·) (ih cs f' g' (by omega) (by omega) (by omega))
      | 0, _ => omega
      | _+1, 0 => omega

theorem stripFences_cons_of {c : Char} (h : c ≠ tick) (cs : List Char) :
    stripFences (c :: cs) = c :: stripFences cs := by
  show stripFencesF (cs.length + 1) (c :: cs) = _
  simp only [stripFencesF, isFenceJson_false_of_head h, isFence3_false_of_head h,
    Bool.false_eq_true, if_false]
  rfl

theorem stripFences_no_tick : ∀ {l : List Char}, (∀ c ∈ l, c ≠ tick) → stripFences l = l := by
  intro l
  induction l with
  | nil => intro _; rfl
  | cons c cs ih =>
    intro h
    rw [stripFences_cons_of (h c (by simp)) cs, ih (fun x hx => h x (by simp [hx]))]

theorem stripFences_append_no_tick :
    ∀ {pre : List Char}, (∀ c ∈ pre, c ≠ tick) → ∀ rest,
      stripFences (pre ++ rest) = pre ++ stripFences rest := by
  intro pre
  induction pre with
  | nil => intro _ rest; rfl
  | cons c cs ih =>
    intro h rest
    rw [List.cons_append, stripFences_cons_of (h c (by simp)),
      ih (fun x hx => h x (by simp [hx])) rest, List.cons_append]

theorem stripFences_open_fence (rest : List Char) :
    stripFences (("```json").toList ++ rest) = stripFences rest := by
  have hl : ("```json").toList = tick :: tick :: tick :: 'j' :: 's' :: 'o' :: 'n' :: [] := by
    decide
  rw [hl]
  show stripFences (tick :: tick :: tick :: 'j' :: 's' :: 'o' :: 'n' :: rest) = stripFences rest
  have hj : isFenceJson (tick :: tick :: tick :: 'j' :: 's' :: 'o' :: 'n' :: rest) = true := by
    simp [isFenceJson]
  have hlen : (tick :: tick :: tick :: 'j' :: 's' :: 'o' :: 'n' :: rest).length =
      (rest.length + 6) + 1 := by simp
  show stripFencesF (tick :: tick :: tick :: 'j' :: 's' :: 'o' :: 'n' :: rest).length
      (tick :: tick :: tick :: 'j' :: 's' :: 'o' :: 'n' :: rest) = stripFences rest
  rw [hlen]
  simp only [stripFencesF, if_pos hj]
  show stripFencesF (rest.length + 6) rest = stripFences rest
  exact stripFencesF_fuel (rest.length) rest _ _ (by omega) (by omega) (by omega)

theorem stripFences_close_fence (a : List Char) :
    stripFences (("```").toList ++ ('\n' :: a)) = '\n' :: stripFences a := by
  have hl : ("```").toList = tick :: tick :: tick :: [] := by decide
  rw [hl]
  show stripFences (tick :: tick :: tick :: '\n' :: a) = '\n' :: stripFences a
  have hj : isFenceJson (tick :: tick :: tick :: '\n' :: a) = false := by
    by_contra hx
    rw [Bool.not_eq_false] at hx
    obtain ⟨d, e, f, g, rest, heq, hd, _⟩ := isFenceJson_spec hx
    have hdn : d = '\n' := by injection heq with _ h2; injection h2 with _ h3
                              injection h3 with _ h4; injection h4 with h5 _; exact h5.symm
    rcases hd with rfl | rfl <;> simp at hdn
  have h3 : isFence3 (tick :: tick :: tick :: '\n' :: a) = true := by simp [isFence3]
  have hlen : (tick :: tick :: tick :: '\n' :: a).length = (a.length + 3) + 1 := by simp
  show stripFencesF (tick :: tick :: tick :: '\n' :: a).length
      (tick :: tick :: tick :: '\n' :: a) = '\n' :: stripFences a
  rw [hlen]
  simp only [stripFencesF, hj, Bool.false_eq_true, if_false, if_pos h3]
  show stripFencesF (a.length + 3) ('\n' :: a) = '\n' :: stripFences a
  have hfi : stripFencesF (a.length + 3) ('\n' :: a) =
      stripFencesF ((a.length) + 1) ('\n' :: a) :=
    stripFencesF_fuel (a.length + 1) _ _ _ (by simp) (by simp) (by simp)
  rw [hfi]
  exact stripFences_cons_of (by decide) a

/-! ## Python strip, find and slice lemmas -/

theorem dropWhile_append_head {p : Char → Bool} :
    ∀ (x : List Char) {m : List Char}, (∃ c t, m = c :: t ∧ p c = false) →
      List.dropWhile p (x ++ m) = List.dropWhile p x ++ m := by
  intro x
  induction x with
  | nil =>
    intro m hm
    obtain ⟨c, t, rfl, hc⟩ := hm
    simp [List.dropWhile_cons, hc]
  | cons y ys ih =>
    intro m hm
    rw [List.cons_append, List.dropWhile_cons, List.dropWhile_cons]
    by_cases hy : p y
    · rw [if_pos hy, if_pos hy]
      exact ih hm
    · rw [if_neg hy, if_neg hy, List.cons_append]

theorem pyStrip_mid {P Q m : List Char}
    (h1 : ∃ c t, m = c :: t ∧ isPyWs c = false)
    (h2 : ∃ c t, m.reverse = c :: t ∧ isPyWs c = false) :
    ∃ P' Q', pyStrip (P ++ m ++ Q) = P' ++ m ++ Q' ∧
      (∀ c ∈ P', c ∈ P) ∧ (∀ c ∈ Q', c ∈ Q) := by
  unfold pyStrip
  have step1 : List.dropWhile isPyWs (P ++ m ++ Q) =
      List.dropWhile isPyWs P ++ (m ++ Q) := by
    rw [List.append_assoc]
    apply dropWhile_append_head
    obtain ⟨c, t, hm, hc⟩ := h1
    exact ⟨c, t ++ Q, by rw [hm]; rfl, hc⟩
  rw [step1]
  have hrev : (List.dropWhile isPyWs P ++ (m ++ Q)).reverse =
      Q.reverse ++ (m.reverse ++ (List.dropWhile isPyWs P).reverse) := by
    simp
  rw [hrev]
  have step2 : List.dropWhile isPyWs
      (Q.reverse ++ (m.reverse ++ (List.dropWhile isPyWs P).reverse)) =
      List.dropWhile isPyWs Q.reverse ++ (m.reverse ++ (List.dropWhile isPyWs P).reverse) := by
    apply dropWhile_append_head
    obtain ⟨c, t, hm, hc⟩ := h2
    exact ⟨c, t ++ (List.dropWhile isPyWs P).reverse, by rw [hm]; rfl, hc⟩
  rw [step2]
  refine ⟨List.dropWhile isPyWs P, (List.dropWhile isPyWs Q.reverse).reverse, by simp, ?_, ?_⟩
  · exact fun c hc => (List.dropWhile_sublist _).subset hc
  · intro c hc
    rw [List.mem_reverse] at hc
    have := (List.dropWhile_sublist (l := Q.reverse) isPyWs).subset hc
    rwa [List.mem_reverse] at this

theorem pyStrip_eq_nil_iff {l : List Char} :
    pyStrip l = [] ↔ ∀ c ∈ l, isPyWs c = true := by
  unfold pyStrip
  constructor
  · intro h c hc
    rw [List.reverse_eq_nil_iff, List.dropWhile_eq_nil_iff] at h
    have hsplit : l = List.takeWhile isPyWs l ++ List.dropWhile isPyWs l :=
      (List.takeWhile_append_dropWhile (p := isPyWs) (l := l)).symm
    rw [hsplit] at hc
    rcases List.mem_append.1 hc with hm | hm
    · exact List.mem_takeWhile_imp hm
    · exact h c (by rwa [List.mem_reverse])
  · intro h
    have hd : List.dropWhile isPyWs l = [] := List.dropWhile_eq_nil_iff.2 h
    rw [hd]
    rfl

theorem pyStrip_ne_nil {l : List Char} {c : Char} (hc : c ∈ l) (hw : isPyWs c = false) :
    (pyStrip l).isEmpty = false := by
  rw [List.isEmpty_eq_false_iff_exists_mem]
  by_contra hx
  push_neg at hx
  have : pyStrip l = [] := List.eq_nil_iff_forall_not_mem.2 hx
  have := pyStrip_eq_nil_iff.1 this c hc
  rw [hw] at this
  exact Bool.false_ne_true this

theorem pyFind_append_first {c : Char} :
    ∀ {pre : List Char}, (∀ x ∈ pre, x ≠ c) → ∀ suf,
      pyFind c (pre ++ c :: suf) = some pre.length := by
  intro pre
  induction pre with
  | nil => intro _ suf; simp [pyFind]
  | cons x xs ih =>
    intro h suf
    rw [List.cons_append, pyFind, if_neg (h x (by simp)), ih (fun y hy => h y (by simp [hy])) suf]
    rfl

theorem pyFind_sound {c : Char} :
    ∀ {l : List Char} {i : Nat}, pyFind c l = some i →
      ∃ pre suf, l = pre ++ c :: suf ∧ pre.length = i := by
  intro l
  induction l with
  | nil => intro i h; simp [pyFind] at h
  | cons x xs ih =>
    intro i h
    rw [pyFind] at h
    by_cases hx : x = c
    · rw [if_pos hx] at h
      injection h with h
      exact ⟨[], xs, by simp [hx], h⟩
    · rw [if_neg hx] at h
      rcases hi : pyFind c xs with _ | i'
      · rw [hi] at h; simp at h
      · rw [hi] at h
        simp only [Option.map_some'] at h
        injection h with h
        obtain ⟨pre, suf, heq, hlen⟩ := ih hi
        exact ⟨x :: pre, suf, by simp [heq],
          by simp only [List.length_cons, hlen]; omega⟩

theorem pyRfind_append_last {c : Char} {post : List Char} (h : ∀ x ∈ post, x ≠ c)
    (xs : List Char) : pyRfind c (xs ++ c :: post) = some xs.length := by
  unfold pyRfind
  have hrev : (xs ++ c :: post).reverse = post.reverse ++ c :: xs.reverse := by simp
  rw [hrev, pyFind_append_first (fun y hy => h y (List.mem_reverse.1 hy)) xs.reverse]
  simp only [Option.map_some']
  congr 1
  simp

theorem pySlice_mid (pre mid post : List Char) :
    pySlice (pre ++ mid ++ post) pre.length (pre.length + mid.length) = mid := by
  unfold pySlice
  rw [List.append_assoc, List.drop_left]
  have harith : pre.length + mid.length - pre.length = mid.length := by omega
  rw [harith, List.take_left]

/-! ## Assembling the sanitizer round trip -/

theorem serObjTail_split : ∀ o : JsonObj, ∃ front, serObjTail o = front ++ ['}'] := by
  intro o
  cases o with
  | nil => exact ⟨[], rfl⟩
  | cons k v tl =>
    obtain ⟨fr, hfr⟩ := serObjTail_split tl
    refine ⟨',' :: ('"' :: (escList k ++ ('"' :: (':' :: (serVal v ++ fr))))), ?_⟩
    have he : serObjTail (JsonObj.cons k v tl) =
        ',' :: ('"' :: (escList k ++ ('"' :: (':' :: (serVal v ++ serObjTail tl))))) := by
      simp [serObjTail]
    rw [he, hfr]
    simp

theorem serObjInner_split (o : JsonObj) : ∃ front, serObjInner o = front ++ ['}'] := by
  cases o with
  | nil => exact ⟨[], rfl⟩
  | cons k v tl =>
    obtain ⟨fr, hfr⟩ := serObjTail_split tl
    refine ⟨'"' :: (escList k ++ ('"' :: (':' :: (serVal v ++ fr)))), ?_⟩
    have he : serObjInner (JsonObj.cons k v tl) =
        '"' :: (escList k ++ ('"' :: (':' :: (serVal v ++ serObjTail tl)))) := by
      simp [serObjInner]
    rw [he, hfr]
    simp

theorem stripFences_subset :
    ∀ (f : Nat) (l : List Char) (c : Char), c ∈ stripFencesF f l → c ∈ l := by
  intro f
  induction f with
  | zero =>
    intro l c hc
    match l with
    | [] => exact hc
    | x :: xs => exact hc
  | succ f ih =>
    intro l c hc
    match l with
    | [] => exact hc
    | x :: xs =>
      rw [stripFencesF] at hc
      by_cases hj : isFenceJson (x :: xs)
      · rw [if_pos hj] at hc
        exact List.drop_subset _ _ (ih _ c hc)
      · rw [if_neg hj] at hc
        by_cases h3 : isFence3 (x :: xs)
        · rw [if_pos h3] at hc
          exact List.drop_subset _ _ (ih _ c hc)
        · rw [if_neg h3] at hc
          rcases List.mem_cons.1 hc with rfl | hm
          · exact List.mem_cons_self _ _
          · exact List.mem_cons_of_mem _ (ih _ c hm)

/-- Shape of a serialized object: an opening brace, a front part, a final
closing brace. -/
theorem serVal_obj_shape (o : JsonObj) :
    ∃ front, serVal (Json.obj o) = '{' :: (front ++ ['}']) := by
  obtain ⟨front, hfront⟩ := serObjInner_split o
  refine ⟨front, ?_⟩
  have he : serVal (Json.obj o) = '{' :: serObjInner o := by simp [serVal]
  rw [he, hfront]

/-- Core sanitizer round trip: if the fence-stripped text is a serialized
JSON object with no opening brace in the material before it and no closing
brace in the material after it, the sanitizer returns exactly that object. -/
theorem extract_stripped (o : JsonObj) (text pre post : List Char)
    (hstrip : stripFences text = pre ++ serVal (Json.obj o) ++ post)
    (hpre : ∀ x ∈ pre, x ≠ '{') (hpost : ∀ x ∈ post, x ≠ '}') :
    extract_json_from_text text = .ok (Json.obj o) := by
  obtain ⟨front, hm⟩ := serVal_obj_shape o
  have hbrace_mem : '{' ∈ text := by
    apply stripFences_subset text.length text '{'
    show '{' ∈ stripFences text
    rw [hstrip, hm]
    simp
  have hne := pyStrip_ne_nil hbrace_mem (by decide)
  have hmid1 : ∃ c t, serVal (Json.obj o) = c :: t ∧ isPyWs c = false :=
    ⟨'{', front ++ ['}'], hm, by decide⟩
  have hmid2 : ∃ c t, (serVal (Json.obj o)).reverse = c :: t ∧ isPyWs c = false := by
    refine ⟨'}', front.reverse ++ ['{'], ?_, by decide⟩
    rw [hm]
    simp
  obtain ⟨P', Q', hps, hPsub, hQsub⟩ := pyStrip_mid (P := pre) (Q := post) hmid1 hmid2
  have hps' : pyStrip (stripFences text) = P' ++ serVal (Json.obj o) ++ Q' := by
    rw [hstrip]
    exact hps
  have hP' : ∀ x ∈ P', x ≠ '{' := fun x hx => hpre x (hPsub x hx)
  have hQ' : ∀ x ∈ Q', x ≠ '}' := fun x hx => hpost x (hQsub x hx)
  have hL : (serVal (Json.obj o)).length = front.length + 2 := by
    rw [hm]
    simp
  have hfind : pyFind '{' (P' ++ serVal (Json.obj o) ++ Q') = some P'.length := by
    have hshape : P' ++ serVal (Json.obj o) ++ Q' = P' ++ '{' :: ((front ++ ['}']) ++ Q') := by
      rw [hm]
      simp
    rw [hshape]
    exact pyFind_append_first hP' _
  have hrfind : pyRfind '}' (P' ++ serVal (Json.obj o) ++ Q') =
      some (P'.length + front.length + 1) := by
    have hshape : P' ++ serVal (Json.obj o) ++ Q' = (P' ++ '{' :: front) ++ '}' :: Q' := by
      rw [hm]
      simp
    rw [hshape, pyRfind_append_last hQ' (P' ++ '{' :: front)]
    congr 1
    simp only [List.length_append, List.length_cons]
    omega
  have hslice : pySlice (P' ++ serVal (Json.obj o) ++ Q') P'.length
      (P'.length + (serVal (Json.obj o)).length) = serVal (Json.obj o) :=
    pySlice_mid P' _ Q'
  have harith : P'.length + front.length + 1 + 1 = P'.length + (serVal (Json.obj o)).length := by
    omega
  simp only [extract_json_from_text, hne, Bool.false_eq_true, if_false, hps', hfind, hrfind,
    harith, hslice, parseJson_serVal]

/-- Sanitizer round trip for a serialized object surrounded by plain prose:
no opening brace before, no closing brace after, no backtick anywhere. -/
theorem extract_plain (o : JsonObj) (pre post : List Char)
    (hpre : ∀ x ∈ pre, x ≠ '{') (hpost : ∀ x ∈ post, x ≠ '}')
    (hpret : ∀ x ∈ pre, x ≠ tick) (hpostt : ∀ x ∈ post, x ≠ tick)
    (hmt : ∀ x ∈ serVal (Json.obj o), x ≠ tick) :
    extract_json_from_text (pre ++ serVal (Json.obj o) ++ post) = .ok (Json.obj o) := by
  apply extract_stripped o _ pre post _ hpre hpost
  apply stripFences_no_tick
  intro x hx
  rcases List.mem_append.1 hx with hx2 | hx2
  · rcases List.mem_append.1 hx2 with hx3 | hx3
    · exact hpret x hx3
    · exact hmt x hx3
  · exact hpostt x hx2

/-- Sanitizer round trip for a serialized object wrapped in markdown fences
and surrounded by prose under the same backtick and brace conditions. -/
theorem extract_fenced (o : JsonObj) (pre post : List Char)
    (hpre : ∀ x ∈ pre, x ≠ '{') (hpost : ∀ x ∈ post, x ≠ '}')
    (hpret : ∀ x ∈ pre, x ≠ tick) (hpostt : ∀ x ∈ post, x ≠ tick)
    (hmt : ∀ x ∈ serVal (Json.obj o), x ≠ tick) :
    extract_json_from_text
      (pre ++ ("```json\n").toList ++ serVal (Json.obj o) ++ ("\n```\n").toList ++ post) =
      .ok (Json.obj o) := by
  apply extract_stripped o _ (pre ++ ['\n']) ('\n' :: '\n' :: post)
  · have hA : ("```json\n").toList = ("```json").toList ++ ['\n'] := by decide
    have hB : ("\n```\n").toList = '\n' :: (("```").toList ++ ['\n']) := by decide
    have h1 : pre ++ ("```json\n").toList ++ serVal (Json.obj o) ++ ("\n```\n").toList ++ post =
        pre ++ (("```json").toList ++ ('\n' :: (serVal (Json.obj o) ++
          ('\n' :: (("```").toList ++ ('\n' :: post)))))) := by
      rw [hA, hB]
      simp [List.append_assoc]
    rw [h1, stripFences_append_no_tick hpret, stripFences_open_fence,
      stripFences_cons_of (by decide), stripFences_append_no_tick hmt,
      stripFences_cons_of (by decide), stripFences_close_fence,
      stripFences_no_tick hpostt]
    simp
  · intro x hx
    rcases List.mem_append.1 hx with hx2 | hx2
    · exact hpre x hx2
    · simp only [List.mem_singleton] at hx2
      subst hx2
      decide
  · intro x hx
    rcases List.mem_cons.1 hx with rfl | hx2
    · decide
    · rcases List.mem_cons.1 hx2 with rfl | hx3
      · decide
      · exact hpost x hx3

/-! ## Success of the sanitizer always yields an object -/

theorem except_bind_ok {α β γ : Type} (x : α) (f : α → Except γ β) :
    (Except.ok x : Except γ α).bind f = f x := rfl

theorem except_bind_error {α β γ : Type} (e : γ) (f : α → Except γ β) :
    (Except.error e : Except γ α).bind f = Except.error e := rfl

theorem pVal_brace_obj {f : Nat} {r : List Char} {j : Json} {rest : List Char}
    (h : pVal f ('{' :: r) = some (j, rest)) : ∃ o, j = Json.obj o := by
  cases f with
  | zero => simp [pVal] at h
  | succ f =>
    have hsw := skipWs_cons_of (c := '{') (by decide) r
    simp only [pVal, hsw] at h
    simp only [reduceIte, Option.map_eq_some'] at h
    obtain ⟨p, _, hp2⟩ := h
    have h1 : Json.obj p.1 = j := congrArg Prod.fst hp2
    exact ⟨p.1, h1.symm⟩

theorem parseJson_brace_obj {r : List Char} {j : Json}
    (h : parseJson ('{' :: r) = some j) : ∃ o, j = Json.obj o := by
  unfold parseJson at h
  rcases hm : pVal (('{' :: r).length + 1) ('{' :: r) with _ | p
  · rw [hm] at h
    simp at h
  · rw [hm] at h
    simp only [Option.some_bind] at h
    by_cases hws : skipWs p.2 = []
    · rw [if_pos hws] at h
      injection h with h
      have : ∃ o, p.1 = Json.obj o := pVal_brace_obj (by rw [hm] : pVal (('{' :: r).length + 1) ('{' :: r) = some (p.1, p.2))
      rwa [h] at this
    · rw [if_neg hws] at h
      simp at h

theorem extract_ok_obj {t : List Char} {j : Json}
    (h : extract_json_from_text t = .ok j) : ∃ o, j = Json.obj o := by
  unfold extract_json_from_text at h
  by_cases hemp : (pyStrip t).isEmpty
  · rw [if_pos hemp] at h
    simp at h
  · rw [if_neg hemp] at h
    rcases hf : pyFind '{' (pyStrip (stripFences t)) with _ | s
    · rw [hf] at h
      simp at h
    · rcases hr : pyRfind '}' (pyStrip (stripFences t)) with _ | e
      · rw [hf, hr] at h
        simp at h
      · rw [hf, hr] at h
        simp only at h
        rcases hp : parseJson (pySlice (pyStrip (stripFences t)) s (e + 1)) with _ | j'
        · rw [hp] at h
          simp at h
        · rw [hp] at h
          simp only at h
          injection h with h
          subst h
          obtain ⟨pre, suf, heq, hlen⟩ := pyFind_sound hf
          rw [heq] at hp
          unfold pySlice at hp
          rw [← hlen, List.drop_left] at hp
          rcases hn : e + 1 - pre.length with _ | n
          · rw [hn] at hp
            simp only [List.take_zero] at hp
            rw [show parseJson [] = none from rfl] at hp
            exact absurd hp (by simp)
          · rw [hn] at hp
            rw [List.take_succ_cons] at hp
            exact parseJson_brace_obj hp

/-! ## Empty-input behaviour of the sanitizer -/

theorem extract_empty_iff (t : List Char) :
    extract_json_from_text t = .error .emptyResponse ↔ ∀ c ∈ t, isPyWs c = true := by
  constructor
  · intro h
    by_contra hx
    push_neg at hx
    obtain ⟨c, hc, hcw⟩ := hx
    have hcw' : isPyWs c = false := by
      revert hcw
      cases isPyWs c <;> simp
    have hne := pyStrip_ne_nil hc hcw'
    unfold extract_json_from_text at h
    rw [if_neg (by simp [hne])] at h
    split at h
    · split at h
      · exact Except.noConfusion h
      · simp at h
    · simp at h
  · intro h
    have hnil : pyStrip t = [] := pyStrip_eq_nil_iff.2 h
    unfold extract_json_from_text
    rw [if_pos (by simp [hnil])]

/-! ## Field lookup on parsed values -/

/-- Does an object member list contain the given key? -/
def objHasKey (name : List Char) : JsonObj → Bool
  | .nil => false
  | .cons k _ tl => k = name || objHasKey name tl

/-- Does a JSON value have the given top-level object field? -/
def hasField (name : List Char) : Json → Bool
  | .obj o => objHasKey name o
  | _ => false

/-! ## Claim theorems -/

/-- C1: when all four model calls succeed at the HTTP level but every
returned text fails sanitize/parse, `analyze_with_ai` makes exactly 4 model
calls (attempt 1: one analysis call; attempt 2: one analysis re-fetch and
one repair call; attempt 3: one analysis call), returns no insight, and the
error reaching the caller is exactly attempt 3's sanitize/parse error. -/
theorem claim_C1 (env : Nat → HttpResponse) (d q : List Char)
    (r : Nat → List Char) (e : Nat → AnalysisError)
    (hok : ∀ i, i < 4 → call_ai (env i) = .ok (r i))
    (hfail : ∀ i, i < 4 → extract_json_from_text (r i) = .error (e i)) :
    analyze_with_ai env d q =
      ⟨.error (e 3),
       [build_analysis_prompt d q, build_analysis_prompt d q,
        build_repair_prompt (r 1), build_analysis_prompt d q]⟩ := by
  have h0 := hok 0 (by omega)
  have h1 := hok 1 (by omega)
  have h2 := hok 2 (by omega)
  have h3 := hok 3 (by omega)
  have hf0 := hfail 0 (by omega)
  have hf1 := hfail 1 (by omega)
  have hf2 := hfail 2 (by omega)
  have hf3 := hfail 3 (by omega)
  unfold analyze_with_ai
  rw [h0, except_bind_ok, hf0, h1, h2, except_bind_ok, hf2, h3, except_bind_ok, hf3]

/-- C1 witness: a concrete environment in which every call returns the
unparsable text `garbage`. -/
theorem claim_C1_witness :
    analyze_with_ai (fun _ => ⟨200, [], some (("garbage").toList)⟩) [] [] =
      ⟨.error .noJsonFound,
       [build_analysis_prompt [] [], build_analysis_prompt [] [],
        build_repair_prompt (("garbage").toList), build_analysis_prompt [] []]⟩ :=
  claim_C1 (fun _ => ⟨200, [], some (("garbage").toList)⟩) [] []
    (fun _ => ("garbage").toList) (fun _ => .noJsonFound)
    (fun _ _ => rfl) (fun _ _ => rfl)

/-- C2: when attempt 1 fails to sanitize but the repair attempt parses,
`analyze_with_ai` makes exactly 3 model calls: the analysis prompt twice
(attempt 1, then attempt 2's re-fetch whose raw output is `raw`), then a
two-message repair prompt whose system message says to fix and return only
valid JSON and whose user message is that raw unsanitized output; the
sanitized result of the repair call is returned. -/
theorem claim_C2 (env : Nat → HttpResponse) (d q : List Char)
    (r0 raw r2 : List Char) (e0 : AnalysisError) (j : Json)
    (h0 : call_ai (env 0) = .ok r0)
    (h0e : extract_json_from_text r0 = .error e0)
    (h1 : call_ai (env 1) = .ok raw)
    (h2 : call_ai (env 2) = .ok r2)
    (h2e : extract_json_from_text r2 = .ok j) :
    analyze_with_ai env d q =
      ⟨.ok j,
       [build_analysis_prompt d q, build_analysis_prompt d q,
        [⟨("system").toList, ("Fix and return ONLY valid JSON.").toList⟩,
         ⟨("user").toList, raw⟩]]⟩ := by
  unfold analyze_with_ai
  rw [h0, except_bind_ok, h0e, h1, h2, except_bind_ok, h2e]
  rfl

/-- C2 witness: attempt 1 sees `junk`, the re-fetch returns `junk` as raw
text, and the repair call returns an empty JSON object. -/
theorem claim_C2_witness :
    analyze_with_ai
      (fun i => if i = 2 then ⟨200, [], some (("\x7b\x7d").toList)⟩
                else ⟨200, [], some (("junk").toList)⟩) [] [] =
      ⟨.ok (Json.obj .nil),
       [build_analysis_prompt [] [], build_analysis_prompt [] [],
        [⟨("system").toList, ("Fix and return ONLY valid JSON.").toList⟩,
         ⟨("user").toList, ("junk").toList⟩]]⟩ :=
  claim_C2
    (fun i => if i = 2 then ⟨200, [], some (("\x7b\x7d").toList)⟩
              else ⟨200, [], some (("junk").toList)⟩) [] []
    (("junk").toList) (("junk").toList) (("\x7b\x7d").toList) .noJsonFound (Json.obj .nil)
    rfl (by decide) rfl rfl (by decide)

/-- C7: when the first model call's text sanitizes and parses, the
orchestrator returns that value after exactly one model call, with no
repair or retry activity. -/
theorem claim_C7 (env : Nat → HttpResponse) (d q : List Char) (r : List Char) (j : Json)
    (h : call_ai (env 0) = .ok r)
    (he : extract_json_from_text r = .ok j) :
    analyze_with_ai env d q = ⟨.ok j, [build_analysis_prompt d q]⟩ := by
  unfold analyze_with_ai
  rw [h, except_bind_ok, he]

/-- C7 witness: first call returns an empty JSON object. -/
theorem claim_C7_witness :
    analyze_with_ai (fun _ => ⟨200, [], some (("\x7b\x7d").toList)⟩) [] [] =
      ⟨.ok (Json.obj .nil), [build_analysis_prompt [] []]⟩ :=
  claim_C7 (fun _ => ⟨200, [], some (("\x7b\x7d").toList)⟩) [] []
    (("\x7b\x7d").toList) (Json.obj .nil) rfl (by decide)

/-- C3 counterexample: a run of `analyze_with_ai` that succeeds with a
parsed object missing all four schema fields (here, lacking `key_points`),
so the claim that every successful result contains all four fields is
false of the code: no field validation exists in the core. -/
theorem claim_C3_counterexample :
    (analyze_with_ai (fun _ => ⟨200, [], some (("\x7b\"a\":1\x7d").toList)⟩) [] []).result =
      .ok (Json.obj (.cons (['a']) (Json.num 1) .nil)) ∧
    hasField (("key_points").toList) (Json.obj (.cons (['a']) (Json.num 1) .nil)) = false := by
  constructor
  · decide
  · decide

/-- C3 amended: every successful result of `analyze_with_ai` is exactly the
sanitize/parse output of one of the at most four model calls — the core
never default-fills or partially populates a result — but the presence of
the four schema fields is not checked by the core. -/
theorem claim_C3 (env : Nat → HttpResponse) (d q : List Char) (j : Json)
    (h : (analyze_with_ai env d q).result = .ok j) :
    ∃ i, i < 4 ∧ (call_ai (env i)).bind extract_json_from_text = .ok j := by
  unfold analyze_with_ai at h
  rcases hb0 : (call_ai (env 0)).bind extract_json_from_text with e0 | j0
  · rw [hb0] at h
    rcases hb1 : call_ai (env 1) with e1 | raw
    · rw [hb1] at h
      simp only at h
      exact ⟨2, by omega, h⟩
    · rw [hb1] at h
      rcases hb2 : (call_ai (env 2)).bind extract_json_from_text with e2 | j2
      · rw [hb2] at h
        simp only at h
        exact ⟨3, by omega, h⟩
      · rw [hb2] at h
        simp only at h
        injection h with h
        exact ⟨2, by omega, by rw [hb2, h]⟩
  · rw [hb0] at h
    simp only at h
    injection h with h
    exact ⟨0, by omega, by rw [hb0, h]⟩

/-- C3 amended witness: the successful result of the counterexample run is
the sanitize/parse output of call 0. -/
theorem claim_C3_witness :
    ∃ i, i < 4 ∧
      (call_ai ((fun _ => (⟨200, [], some (("\x7b\"a\":1\x7d").toList)⟩ : HttpResponse)) i)).bind
        extract_json_from_text = .ok (Json.obj (.cons (['a']) (Json.num 1) .nil)) :=
  claim_C3 (fun _ => ⟨200, [], some (("\x7b\"a\":1\x7d").toList)⟩) [] []
    (Json.obj (.cons (['a']) (Json.num 1) .nil)) (by decide)

/-- C4 counterexample: a well-formed JSON object serialized into text and
followed by the prose `space closing-brace` is not recovered — the slice
from the first opening brace to the last closing brace swallows the prose
brace and parsing fails — so the claim is false for arbitrary prose. -/
theorem claim_C4_counterexample :
    extract_json_from_text
      (serVal (Json.obj (.cons (['a']) (Json.num 1) .nil)) ++ (" \x7d").toList) =
      .error .jsonParse := by decide

/-- C4 amended: for every JSON object, embedding its serialization in text
— either wrapped in a markdown fence block (with the fence markers on their
own lines) or bare — surrounded by prose, `sanitize_and_parse` recovers
exactly that object, provided the prose before contains no opening brace,
the prose after contains no closing brace, and neither the prose nor the
serialized object contains a backtick. -/
theorem claim_C4 (o : JsonObj) (pre post : List Char)
    (hpre : ∀ x ∈ pre, x ≠ '{') (hpost : ∀ x ∈ post, x ≠ '}')
    (hpret : ∀ x ∈ pre, x ≠ tick) (hpostt : ∀ x ∈ post, x ≠ tick)
    (hmt : ∀ x ∈ serVal (Json.obj o), x ≠ tick) :
    extract_json_from_text
      (pre ++ ("```json\n").toList ++ serVal (Json.obj o) ++ ("\n```\n").toList ++ post) =
      .ok (Json.obj o) ∧
    extract_json_from_text (pre ++ serVal (Json.obj o) ++ post) = .ok (Json.obj o) :=
  ⟨extract_fenced o pre post hpre hpost hpret hpostt hmt,
   extract_plain o pre post hpre hpost hpret hpostt hmt⟩

/-- C4 witness: a concrete object with prose around it, fenced and bare. -/
theorem claim_C4_witness :
    extract_json_from_text
      ((("Here is the result: ").toList) ++ ("```json\n").toList ++
        serVal (Json.obj (.cons (['a']) (Json.num 1) .nil)) ++ ("\n```\n").toList ++
        (("Thanks.").toList)) =
      .ok (Json.obj (.cons (['a']) (Json.num 1) .nil)) ∧
    extract_json_from_text
      ((("Here is the result: ").toList) ++
        serVal (Json.obj (.cons (['a']) (Json.num 1) .nil)) ++ (("Thanks.").toList)) =
      .ok (Json.obj (.cons (['a']) (Json.num 1) .nil)) :=
  claim_C4 (.cons (['a']) (Json.num 1) .nil) (("Here is the result: ").toList)
    (("Thanks.").toList) (by decide) (by decide) (by decide) (by decide) (by decide)

/-- C5: on the text `open a colon one close trailing open not json close`
the sanitizer takes the slice from the first opening brace (index 0) to the
last closing brace (the final index), i.e. the whole text, attempts to
parse exactly that slice, and fails with the JSON parse error — it does not
succeed on the first well-formed object. -/
theorem claim_C5 :
    pyFind '{' (pyStrip (stripFences (("\x7b\"a\":1\x7d trailing \x7bnot json\x7d").toList))) =
      some 0 ∧
    pyRfind '}' (pyStrip (stripFences (("\x7b\"a\":1\x7d trailing \x7bnot json\x7d").toList))) =
      some 26 ∧
    pySlice (pyStrip (stripFences (("\x7b\"a\":1\x7d trailing \x7bnot json\x7d").toList))) 0 27 =
      ("\x7b\"a\":1\x7d trailing \x7bnot json\x7d").toList ∧
    extract_json_from_text (("\x7b\"a\":1\x7d trailing \x7bnot json\x7d").toList) =
      .error .jsonParse := by
  refine ⟨by decide, by decide, by decide, by decide⟩

/-- C6 counterexample: an HTTP 201 response — a 2xx success status — makes
`call_ai` fail with an upstream error, so the claim that every 2xx status
succeeds is false: the code tests for status 200 exactly. -/
theorem claim_C6_counterexample :
    call_ai ⟨201, ("body").toList, some (("content").toList)⟩ =
      .error (.upstream 201 (("body").toList)) := rfl

/-- C6 amended: `call_ai` fails with an upstream error carrying the HTTP
status and response body exactly when the status differs from 200, and for
status 200 returns the first choice's content (defaulting to the empty
string when absent). -/
theorem claim_C6 (resp : HttpResponse) :
    call_ai resp = if resp.status = 200 then .ok (resp.content.getD [])
      else .error (.upstream resp.status resp.body) := by
  unfold call_ai
  by_cases h : resp.status = 200 <;> simp [h]

/-- C8: the sanitizer fails with the empty-response error exactly on empty
or whitespace-only input; in particular on the empty string and on three
spaces. -/
theorem claim_C8 :
    (∀ t, extract_json_from_text t = .error .emptyResponse ↔ ∀ c ∈ t, isPyWs c = true) ∧
    extract_json_from_text (("").toList) = .error .emptyResponse ∧
    extract_json_from_text (("   ").toList) = .error .emptyResponse := by
  refine ⟨extract_empty_iff, by decide, by decide⟩

/-- C9: the prompt builder emits exactly two messages — the fixed JSON-only
system instruction and a user message embedding the question verbatim
between the fixed schema template and the document text capped at its
first 6000 characters (a document of length at most 6000 is embedded
unmodified; a longer one contributes exactly 6000 characters). -/
theorem claim_C9 (d q : List Char) :
    build_analysis_prompt d q =
      [⟨("system").toList, ("You MUST return ONLY valid JSON. No explanations.").toList⟩,
       ⟨("user").toList,
        userPromptPre ++ q ++ userPromptMid ++ d.take 6000 ++ userPromptEnd⟩] ∧
    (build_analysis_prompt d q).length = 2 ∧
    (d.take 6000 = d ↔ d.length ≤ 6000) ∧
    (d.take 6000).length = min 6000 d.length := by
  refine ⟨rfl, rfl, List.take_eq_self_iff d, List.length_take _ _⟩

/-- C10: whenever the sanitizer succeeds, the value produced is a JSON
object — never an array, string, number, boolean or null — because the
parsed slice begins at an opening brace. -/
theorem claim_C10 (t : List Char) (j : Json)
    (h : extract_json_from_text t = .ok j) : ∃ o, j = Json.obj o :=
  extract_ok_obj h

/-- C10 witness: the empty object text. -/
theorem claim_C10_witness : ∃ o, Json.obj JsonObj.nil = Json.obj o :=
  claim_C10 (("\x7b\x7d").toList) (Json.obj JsonObj.nil) (by decide)
